import Mathlib

attribute [local semireducible] Rat.add Rat.mul Rat.sub Rat.inv

/-!
Verification development for the gemscap_quant_app pipeline
(src/analytics.py, src/storage.py, src/app.py, src/ingestion.py).

Modelling conventions, used throughout:

* IEEE floats are embedded as exact rationals (`ℚ`); float round-off is
  abstracted away, and a float `NaN` is embedded as `Option.none`.
* Timestamps are embedded as natural numbers counting whole seconds since
  the epoch.  The alert timestamps in src/app.py are formatted and reparsed
  with the second-granularity format string, so whole seconds are exactly
  the information the code keeps.
* pandas series indexed by time are embedded as association lists
  `List (ℕ × Option ℚ)` from index key to possibly-missing value; the
  pipeline only ever builds indexes with pairwise distinct keys
  (a `DatetimeIndex` produced by `resample`), which the embedding assumes.
* Sample standard deviations and skewness are irrational-valued (they
  involve square roots), so they are represented by rational data that
  determines them: a standard deviation is stored as its square (the
  sample variance) and a skewness as the pair of central moment sums
  `(m2, m3)`; definedness (`NaN` or not) and equality are preserved
  exactly by these representations.
-/

namespace GemscapQuant

/-! ## Data model: ticks and bars -/

/-- One trade tick, as aggregated by `QuantAnalytics.resample_ticks`
(src/analytics.py lines 23-54): a row of the input frame with columns
`timestamp` (embedded as whole seconds) and `price`, `quantity` (rationals). -/
structure Tick where
  timestamp : ℕ
  price : ℚ
  quantity : ℚ
  deriving DecidableEq, Repr

/-- One OHLCV bar, a row of the frame returned by `resample_ticks`.
The `open` column is named `op` because `open` is a Lean keyword. -/
structure Bar where
  period_start : ℕ
  op : ℚ
  high : ℚ
  low : ℚ
  close : ℚ
  volume : ℚ
  deriving DecidableEq, Repr

/-- Ascending-timestamp order on ticks, the order `pandas` sorts by inside
`Series.resample` (the resampler calls `_set_grouper` with `sort=True`,
which applies a stable `mergesort` argsort when the index is not already
monotonic; `List.insertionSort` is likewise stable, so it is a faithful
model of that sort). -/
def tsLe (a b : Tick) : Prop := a.timestamp ≤ b.timestamp

instance : DecidableRel tsLe := fun a b => Nat.decLe a.timestamp b.timestamp

instance : IsTotal Tick tsLe := ⟨fun a b => Nat.le_total a.timestamp b.timestamp⟩

instance : IsTrans Tick tsLe := ⟨fun _ _ _ => Nat.le_trans⟩

/-- Bucket groups of a tick list: maximal runs of consecutive ticks whose
timestamps fall in the same width-`w` bucket `floor(timestamp / w)`.
Applied after the timestamp sort, this is exactly the binning performed by
`Series.resample(timeframe)` for the second-aligned timeframes the app uses
(`1s`, `1min`, `5min` buckets all start on multiples of `w` seconds from
the epoch).  Each group is kept as head-plus-rest so it is nonempty by
construction: `resample` materialises empty intermediate bins as rows whose
`open/high/low/close` are `NaN`, and line 50 (`return ohlc.dropna()`) drops
exactly those rows again, so only nonempty buckets survive. -/
def bucketsOf (w : ℕ) : List Tick → List (Tick × List Tick)
  | [] => []
  | t :: ts =>
    match bucketsOf w ts with
    | [] => [(t, [])]
    | (u, g) :: gs =>
      if t.timestamp / w = u.timestamp / w then (t, u :: g) :: gs
      else (t, []) :: (u, g) :: gs

/-- Maximum of the prices of a nonempty tick group. -/
def maxPrice (t0 : Tick) (g : List Tick) : ℚ :=
  g.foldr (fun t m => max t.price m) t0.price

/-- Minimum of the prices of a nonempty tick group. -/
def minPrice (t0 : Tick) (g : List Tick) : ℚ :=
  g.foldr (fun t m => min t.price m) t0.price

/-- The OHLCV row of one nonempty bucket, as produced by
`df["price"].resample(timeframe).ohlc()` together with
`df["quantity"].resample(timeframe).sum()` (src/analytics.py lines 44-47):
open and close are the first and last price of the bucket in sorted order,
high and low the maximum and minimum price, volume the quantity sum. -/
def mkBar (w : ℕ) (g : Tick × List Tick) : Bar :=
  { period_start := (g.1.timestamp / w) * w
    op := g.1.price
    high := maxPrice g.1 g.2
    low := minPrice g.1 g.2
    close := ((g.1 :: g.2).getLast (List.cons_ne_nil g.1 g.2)).price
    volume := (g.1.quantity :: g.2.map Tick.quantity).sum }

/-- Embeds `QuantAnalytics.resample_ticks` (src/analytics.py lines 23-54)
at bucket width `w` seconds: stable-sort the ticks by timestamp (done
inside `Series.resample`, see `tsLe`), bin them into width-`w` buckets, and
emit one OHLCV bar per nonempty bucket (`dropna` removes the all-`NaN` rows
that `resample` synthesises for empty bins).  An empty input gives an empty
frame. -/
def resample_ticks (ticks : List Tick) (w : ℕ) : List Bar :=
  (bucketsOf w (List.insertionSort tsLe ticks)).map (mkBar w)

/-! ## Storage: `TickStorage.get_ticks` (src/storage.py lines 46-71) -/

/-- One row of the `ticks` table, in insertion (rowid) order inside the
database list.  The `timestamp` TEXT column holds second-granularity ISO
strings, whose lexicographic (SQLite) order coincides with the numeric
order of the embedded whole-second timestamps. -/
structure TickRow where
  timestamp : ℕ
  symbol : String
  price : ℚ
  quantity : ℚ
  deriving DecidableEq, Repr

/-- Descending-timestamp order used by the `ORDER BY timestamp DESC`
clause of `get_ticks`.  SQLite does not specify the relative order of rows
with equal timestamps; the embedding fixes one concrete refinement (a
stable insertion sort), and the theorems only state properties that hold
for every refinement. -/
def rowDesc (a b : TickRow) : Prop := b.timestamp ≤ a.timestamp

/-- Ascending-timestamp order used by the final
`df.sort_values('timestamp')` of `get_ticks` (again one concrete
refinement of the unstable pandas quicksort). -/
def rowAsc (a b : TickRow) : Prop := a.timestamp ≤ b.timestamp

instance : DecidableRel rowDesc := fun a b => Nat.decLe b.timestamp a.timestamp

instance : IsTotal TickRow rowDesc := ⟨fun a b => (Nat.le_total b.timestamp a.timestamp)⟩

instance : IsTrans TickRow rowDesc := ⟨fun _ _ _ h h2 => Nat.le_trans h2 h⟩

instance : DecidableRel rowAsc := fun a b => Nat.decLe a.timestamp b.timestamp

instance : IsTotal TickRow rowAsc := ⟨fun a b => Nat.le_total a.timestamp b.timestamp⟩

instance : IsTrans TickRow rowAsc := ⟨fun _ _ _ => Nat.le_trans⟩

/-- Embeds `TickStorage.get_ticks` (src/storage.py lines 46-68).  The SQL
query filters by symbol and time range, sorts `ORDER BY timestamp DESC`,
applies `LIMIT limit` only when `limit` is truthy (so `None` and `0` both
mean no limit, matching Python `if limit:`), and the resulting frame is
finally re-sorted ascending by timestamp.  `none` for `symbol` models a
falsy Python argument (`None`; the empty string behaves the same and is
not used by the app). -/
def get_ticks (db : List TickRow) (symbol : Option String) (limit : Option ℕ)
    (start_time end_time : Option ℕ) : List TickRow :=
  let rows := db.filter fun r =>
    (match symbol with | some s => r.symbol == s | none => true) &&
    (match start_time with | some t => decide (t ≤ r.timestamp) | none => true) &&
    (match end_time with | some t => decide (r.timestamp ≤ t) | none => true)
  let desc := List.insertionSort rowDesc rows
  let limited := match limit with
    | none => desc
    | some n => if n = 0 then desc else desc.take n
  List.insertionSort rowAsc limited

/-- Embeds `TickStorage.get_latest_ticks` (src/storage.py lines 70-71):
`get_ticks(symbol=symbol, limit=n)`. -/
def get_latest_ticks (db : List TickRow) (symbol : String) (n : ℕ) : List TickRow :=
  get_ticks db (some symbol) (some n) none none

/-! ## Statistics engine (src/analytics.py) -/

/-- Key lookup in a time-indexed series, used to model
`Series.align(other, join="inner")`: for each index key of the left series
the matching value of the right series, if the key is present there.  The
series produced by the pipeline (resampled OHLC frames) have pairwise
distinct index keys, which this lookup assumes. -/
def lookupKey (k : ℕ) : List (ℕ × Option ℚ) → Option (Option ℚ)
  | [] => none
  | (k2, v) :: rest => if k = k2 then some v else lookupKey k rest

/-- Embeds line 72 of src/analytics.py,
`price_a, price_b = price_a.align(price_b, join="inner")`: the rows whose
key occurs in both series, in left-series order (for the monotone indexes
the pipeline produces this is also the sorted intersection order pandas
returns). -/
def alignInner (a b : List (ℕ × Option ℚ)) : List (Option ℚ × Option ℚ) :=
  a.filterMap fun p => (lookupKey p.1 b).map fun vb => (p.2, vb)

/-- Embeds lines 75-77 of src/analytics.py, the
`valid_idx = ~(price_a.isna() | price_b.isna())` mask: keep only the
aligned rows where both values are present. -/
def dropPairsNa (l : List (Option ℚ × Option ℚ)) : List (ℚ × ℚ) :=
  l.filterMap fun p =>
    match p with
    | (some x, some y) => some (x, y)
    | _ => none

/-- The aligned, NaN-free point set `(a_value, b_value)` that
`calculate_ols_hedge_ratio` regresses on. -/
def alignedPoints (a b : List (ℕ × Option ℚ)) : List (ℚ × ℚ) :=
  dropPairsNa (alignInner a b)

/-- Arithmetic mean of a list of rationals (`ndarray.mean`); `0` on the
empty list (never used at the empty list by the guarded call sites). -/
def qmean (l : List ℚ) : ℚ := l.sum / l.length

/-- Centered second moment sum `Σ (x - mean)²` of a list. -/
def sdev2 (l : List ℚ) : ℚ := (l.map fun x => (x - qmean l) ^ 2).sum

/-- Centered cross moment sum `Σ (x - mean xl) * (y - mean yl)` over the
row-wise pairing of two lists. -/
def cdev (xl yl : List ℚ) : ℚ :=
  ((xl.zip yl).map fun p => (p.1 - qmean xl) * (p.2 - qmean yl)).sum

/-- Embeds `QuantAnalytics.calculate_ols_hedge_ratio`
(src/analytics.py lines 56-93), returning
`(beta, alpha, r_squared)` with `r_squared : Option ℚ` (`none` embeds a
float `NaN`).  After inner alignment and NaN dropping:

* fewer than 2 points: the literal `return 1.0, 0.0, 0.0` of line 80;
* otherwise the code runs `sm.OLS(A, sm.add_constant(B)).fit()` and
  returns `model.params[1], model.params[0], model.rsquared`.  With exact
  arithmetic the fitted parameters on a nonsingular design `[1, B]` are
  the textbook closed forms, and `model.rsquared = 1 - ssr / centered_tss`
  is `NaN` exactly when `centered_tss = Σ (a - mean a)² = 0`;
* when B is constant on the ≥ 2 aligned points (`Σ (b - mean b)² = 0`),
  the behaviour hinges on `sm.add_constant`, whose `has_constant`
  parameter defaults to `"skip"`: a column is treated as an existing
  constant when it has zero peak-to-peak range AND all entries nonzero.
  - B constant and nonzero: `add_constant` returns the data unchanged,
    the design has the single column B, `model.params` has length 1, and
    evaluating `model.params[1]` raises `IndexError`, which the `except`
    of lines 91-93 turns into the neutral default `(1.0, 0.0, 0.0)`;
  - B constant zero: the column is not flagged (the all-nonzero test
    fails), the intercept column is added, and on the singular design
    `[1, 0]` the default `pinv` fit returns the minimum-norm solution
    `beta = 0`, `alpha = mean A` with fitted values `mean A`, so
    `ssr = centered_tss` and `rsquared` is `0` (or the `NaN` of
    `1 - 0/0` when A is constant too). -/
def calculate_ols_hedge_ratio (a b : List (ℕ × Option ℚ)) : ℚ × ℚ × Option ℚ :=
  let pts := alignedPoints a b
  if pts.length < 2 then (1, 0, some 0)
  else
    let ys := pts.map Prod.fst
    let xs := pts.map Prod.snd
    let sxx := sdev2 xs
    let syy := sdev2 ys
    let sxy := cdev xs ys
    if sxx = 0 then
      if ∀ x ∈ xs, x ≠ 0 then (1, 0, some 0)
      else (0, qmean ys, if syy = 0 then none else some 0)
    else
      let beta := sxy / sxx
      let ssr := syy - sxy ^ 2 / sxx
      (beta, qmean ys - beta * qmean xs,
        if syy = 0 then none else some (1 - ssr / syy))

/-- The width-`w` window of a series ending at 0-based index `i`,
`[x_{i-w+1}, ..., x_i]`, as used by `series.rolling(window=w)`. -/
def windowAt (xs : List ℚ) (w i : ℕ) : List ℚ :=
  (xs.take (i + 1)).drop (i + 1 - w)

/-- Rolling mean `series.rolling(window=w).mean()` at index `i` (only
meaningful once the window is full, `w ≤ i + 1`). -/
def rollMeanAt (xs : List ℚ) (w i : ℕ) : ℚ := qmean (windowAt xs w i)

/-- Rolling sample variance (the square of
`series.rolling(window=w).std()`, which uses `ddof=1`) at index `i`. -/
def rollVarAt (xs : List ℚ) (w i : ℕ) : ℚ :=
  sdev2 (windowAt xs w i) / ((w : ℚ) - 1)

/-- Embeds `QuantAnalytics.calculate_zscore` (src/analytics.py lines
120-146).  The input series is real-valued (no NaN: it is a spread of
close prices), and the output is the defined-point list after
`((series - rolling_mean) / rolling_std).dropna()`, as triples
`(index, x_i - rolling_mean_i, rolling_var_i)`; the z-score value itself
is `(x_i - rolling_mean_i) / sqrt(rolling_var_i)`, represented by that
pair because the square root is irrational.  A point survives `dropna`
exactly when

* the window is full, `w ≤ i + 1` (rolling mean and std are `NaN` before
  that, `min_periods` defaulting to the window size), and
* `2 ≤ w` (with `ddof=1` a width-1 rolling std is `0/0 = NaN`; and pandas
  rejects `window=0`, which the enclosing `except` turns into an empty
  series), and
* the rolling variance is nonzero (line 137,
  `rolling_std.replace(0, np.nan)`, the divide-by-zero guard). -/
def calculate_zscore (xs : List ℚ) (w : ℕ) : List (ℕ × ℚ × ℚ) :=
  (List.range xs.length).filterMap fun i =>
    if 2 ≤ w ∧ w ≤ i + 1 ∧ rollVarAt xs w i ≠ 0 then
      some (i, xs.getD i 0 - rollMeanAt xs w i, rollVarAt xs w i)
    else none

/-- The record returned by `QuantAnalytics.calculate_summary_stats`
(src/analytics.py lines 168-199): the dict keys `mean`, `std`, `min`,
`max`, `skew`, `kurtosis`, `count`.  `none` embeds a float `NaN`.  The
`std` field stores the square of the standard deviation (the sample
variance) and the `skew` field stores the centered moment sums
`(m2, m3) = (Σ (x - mean)², Σ (x - mean)³)`, since both pandas values are
irrational square-root expressions; together with `count` these determine
the float values exactly and preserve definedness and equality. -/
structure SummaryStats where
  mean : Option ℚ
  std : Option ℚ
  min : Option ℚ
  max : Option ℚ
  skew : Option (ℚ × ℚ)
  kurtosis : Option ℚ
  count : ℕ
  deriving DecidableEq, Repr

/-- Centered power moment sum `Σ (x - mean)^p` of a list. -/
def momentSum (l : List ℚ) (p : ℕ) : ℚ := (l.map fun x => (x - qmean l) ^ p).sum

/-- Fisher kurtosis as computed by pandas `nankurt` for `count ≥ 4` (an
exact rational function of the moment sums): with `m2 = Σ d²`,
`m4 = Σ d⁴`, it is `n(n+1)(n-1)·m4 / ((n-2)(n-3)·m2²) - 3(n-1)²/((n-2)(n-3))`,
zeroed out when the denominator vanishes (constant series). -/
def pandasKurt (l : List ℚ) : ℚ :=
  let n : ℚ := l.length
  let m2 := momentSum l 2
  let m4 := momentSum l 4
  if (n - 2) * (n - 3) * m2 ^ 2 = 0 then 0
  else n * (n + 1) * (n - 1) * m4 / ((n - 2) * (n - 3) * m2 ^ 2)
    - 3 * (n - 1) ^ 2 / ((n - 2) * (n - 3))

/-- Embeds `QuantAnalytics.calculate_summary_stats`
(src/analytics.py lines 168-199) on a real-valued series.  None of the
pandas reductions raises on any input (the empty series gives `NaN`
moments and `count = 0`), so the `except` branch of lines 189-199 is dead
here and the function is total:

* `mean` is `NaN` only on the empty series;
* `std` (sample, `ddof=1`) is `NaN` for fewer than 2 points, stored as the
  sample variance;
* `min`/`max` are `NaN` only on the empty series;
* `skew` is `NaN` for fewer than 3 points (pandas `nanskew`), stored as
  the moment-sum pair `(m2, m3)`;
* `kurtosis` is `NaN` for fewer than 4 points (pandas `nankurt`);
* `count` is `len(series)`. -/
def calculate_summary_stats (xs : List ℚ) : SummaryStats :=
  { mean := if xs.length = 0 then none else some (qmean xs)
    std := if xs.length < 2 then none else some (sdev2 xs / ((xs.length : ℚ) - 1))
    min := match xs with
      | [] => none
      | x :: rest => some (rest.foldr (fun y m => Min.min y m) x)
    max := match xs with
      | [] => none
      | x :: rest => some (rest.foldr (fun y m => Max.max y m) x)
    skew := if xs.length < 3 then none else some (momentSum xs 2, momentSum xs 3)
    kurtosis := if xs.length < 4 then none else some (pandasKurt xs)
    count := xs.length }

/-- The record the spec assigns to `summary_stats`
(spec.md section 4.3).  Its value fields are `Option ℚ` with the same
`NaN`-as-`none` and variance-for-std conventions as `SummaryStats`. -/
structure SpecSummaryStats where
  count : ℕ
  mean : Option ℚ
  std : Option ℚ
  min : Option ℚ
  max : Option ℚ
  last : Option ℚ
  returns_mean : Option ℚ
  returns_std : Option ℚ
  deriving DecidableEq, Repr

/-- Percentage first differences of a series,
`100 * (x_{i+1} - x_i) / x_i`, the returns series the spec asks
`summary_stats` to summarise. -/
def pctReturns : List ℚ → List ℚ
  | [] => []
  | [_] => []
  | x :: y :: rest => (100 * (y - x) / x) :: pctReturns (y :: rest)

/-- Follows the spec wording, not the source (for comparison with
`calculate_summary_stats`): `summary_stats(series) -> {count, mean, std,
min, max, last, returns_mean, returns_std}` with percentage
first-difference returns statistics (spec.md sections 4.3 and 8). -/
def summary_stats_spec (xs : List ℚ) : SpecSummaryStats :=
  let r := pctReturns xs
  { count := xs.length
    mean := if xs.length = 0 then none else some (qmean xs)
    std := if xs.length < 2 then none else some (sdev2 xs / ((xs.length : ℚ) - 1))
    min := match xs with
      | [] => none
      | x :: rest => some (rest.foldr (fun y m => Min.min y m) x)
    max := match xs with
      | [] => none
      | x :: rest => some (rest.foldr (fun y m => Max.max y m) x)
    last := xs.getLast?
    returns_mean := if r.length = 0 then none else some (qmean r)
    returns_std := if r.length < 2 then none else some (sdev2 r / ((r.length : ℚ) - 1))
    }

/-! ## Stationarity test (src/analytics.py lines 201-249) -/

/-- The tuple content `statsmodels.tsa.stattools.adfuller` returns that
`adf_test` reads: test statistic (`result[0]`), p-value (`result[1]`) and
the 1%/5%/10% critical values (`result[4]`). -/
structure AdfOut where
  stat : ℚ
  pvalue : ℚ
  crit1 : ℚ
  crit5 : ℚ
  crit10 : ℚ
  deriving DecidableEq, Repr

/-- The result dict built by `QuantAnalytics.adf_test`
(src/analytics.py lines 233-242). -/
structure AdfResult where
  adf_statistic : ℚ
  p_value : ℚ
  critical_1 : ℚ
  critical_5 : ℚ
  critical_10 : ℚ
  is_stationary : Bool
  n_observations : ℕ
  interpretation : String
  deriving DecidableEq, Repr

/-- A raised Python exception, as surfaced to the caller.  `adf_test`
re-raises whatever the body raised after logging it (lines 247-249,
`print(...)` then bare `raise`), so the `ValueError` of line 223 reaches
the caller. -/
inductive PyError where
  | valueError (msg : String)
  deriving DecidableEq, Repr

/-- Embeds `QuantAnalytics.adf_test` (src/analytics.py lines 201-249),
with the external `adfuller` call (the Augmented Dickey-Fuller regression
of statsmodels, whose numerics are outside this repository) abstracted as
the oracle argument `adfuller`.  The series is first NaN-dropped; fewer
than 50 remaining observations raise
`ValueError("ADF test requires at least 50 data points. Got {n}.")`,
otherwise the test runs and `is_stationary` is `p_value < 0.05`.
Assumes `STATSMODELS_AVAILABLE` (the app imports statsmodels). -/
def adf_test (adfuller : List ℚ → AdfOut) (series : List (Option ℚ)) :
    Except PyError AdfResult :=
  let s := series.filterMap id
  if s.length < 50 then
    .error (.valueError
      ("ADF test requires at least 50 data points. Got " ++ toString s.length ++ "."))
  else
    let r := adfuller s
    .ok
      { adf_statistic := r.stat
        p_value := r.pvalue
        critical_1 := r.crit1
        critical_5 := r.crit5
        critical_10 := r.crit10
        is_stationary := decide (r.pvalue < 1 / 20)
        n_observations := s.length
        interpretation :=
          if r.pvalue < 1 / 20 then "Stationary (reject null hypothesis)"
          else "Non-stationary (fail to reject null hypothesis)" }

/-! ## Alert evaluator (src/app.py lines 266-283) -/

/-- One entry of `st.session_state.alerts`: the dict appended at lines
278-283.  The timestamp is stored formatted at second granularity
(`"%Y-%m-%d %H:%M:%S"`), embedded as whole seconds. -/
structure Alert where
  timestamp : ℕ
  symbol_pair : String
  zscore : ℚ
  spread : ℚ
  deriving DecidableEq, Repr

/-- One evaluation of the alert check: the app observes the latest
z-score value `zscore.iloc[-1]` (and spread) for the currently selected
pair at wall-clock time `now` (whole seconds).  Only refresh cycles whose
z-score series is nonempty reach the check, so every observation carries a
value. -/
structure ZObs where
  now : ℕ
  pair : String
  zscore : ℚ
  spread : ℚ
  deriving DecidableEq, Repr

/-- Embeds one execution of the alert check of src/app.py lines 266-283 on
the alert list `alerts`.  If `|zscore| > threshold`, the code looks at
`st.session_state.alerts[-1]` — the most recent alert of any symbol pair —
and suppresses the new alert when
`(current_time - last_time).seconds < 5`.  Python `timedelta.seconds` is
the seconds component after normalisation, i.e. the elapsed whole seconds
modulo 86400 when `current_time ≥ last_time`; the embedding assumes
observations arrive in wall-clock order (`now` at least the recorded
timestamps), which every theorem below hypothesises. -/
def alertStep (threshold : ℚ) (alerts : List Alert) (o : ZObs) : List Alert :=
  if |o.zscore| > threshold then
    let should : Bool :=
      match alerts.getLast? with
      | none => true
      | some a => decide (¬ (o.now - a.timestamp) % 86400 < 5)
    if should then alerts ++ [⟨o.now, o.pair, o.zscore, o.spread⟩] else alerts
  else alerts

/-- The alert list produced by running the check of src/app.py on a
sequence of refresh-cycle observations, starting from the empty list the
session state is initialised with (line 51). -/
def runAlerts (threshold : ℚ) (obs : List ZObs) : List Alert :=
  obs.foldl (alertStep threshold) []

/-- Follows the spec wording, not the source (for comparison with
`alertStep`): spec.md section 4.4 debounces per symbol pair, comparing
`now` against the last alert recorded for the same pair only. -/
def alertStepPerPair (threshold : ℚ) (alerts : List Alert) (o : ZObs) : List Alert :=
  if |o.zscore| > threshold then
    let should : Bool :=
      match (alerts.filter fun a => a.symbol_pair == o.pair).getLast? with
      | none => true
      | some a => decide (5 ≤ o.now - a.timestamp)
    cond should (alerts ++ [⟨o.now, o.pair, o.zscore, o.spread⟩]) alerts
  else alerts

/-- The alert list under the per-pair debounce the spec describes. -/
def runAlertsPerPair (threshold : ℚ) (obs : List ZObs) : List Alert :=
  obs.foldl (alertStepPerPair threshold) []

/-- Builds the time-indexed series with consecutive integer keys starting
at `k` over the given values; used to state theorems about
`calculate_ols_hedge_ratio` on concrete aligned close-price series. -/
def mkSeriesFrom (k : ℕ) : List ℚ → List (ℕ × Option ℚ)
  | [] => []
  | y :: ys => (k, some y) :: mkSeriesFrom (k + 1) ys

/-! ## Helper lemmas -/

theorem append_singleton_ne {α : Type} (s : List α) (x : α) : s ++ [x] ≠ s := by
  intro h
  have hlen := congrArg List.length h
  simp at hlen

theorem filterMap_ite {α β : Type} (P : α → Prop) [DecidablePred P] (g : α → β) :
    ∀ l : List α,
      (l.filterMap fun a => if P a then some (g a) else none)
        = (l.filter fun a => decide (P a)).map g := by
  intro l
  induction l with
  | nil => rfl
  | cons x xs ih => by_cases h : P x <;> simp [h, ih]

theorem filter_range_le (a : ℕ) :
    ∀ n, (List.range n).filter (fun i => decide (a ≤ i)) = List.range' a (n - a) := by
  intro n
  induction n with
  | zero => simp
  | succ n ih =>
    rw [List.range_succ, List.filter_append, ih]
    by_cases h : a ≤ n
    · have h1 : n + 1 - a = (n - a) + 1 := by omega
      simp only [List.filter_cons, List.filter_nil, decide_eq_true h, if_pos]
      rw [h1, List.range'_concat, one_mul, Nat.add_sub_cancel' h]
    · have h1 : n + 1 - a = 0 := by omega
      have h2 : n - a = 0 := by omega
      simp [h, h1, h2]

theorem alertStep_getLast_none (thr : ℚ) (s : List Alert) (o : ZObs)
    (hl : s.getLast? = none) :
    alertStep thr s o =
      if |o.zscore| > thr then s ++ [⟨o.now, o.pair, o.zscore, o.spread⟩] else s := by
  unfold alertStep
  rw [hl]
  by_cases h : |o.zscore| > thr <;> simp [h]

theorem alertStep_getLast_some (thr : ℚ) (s : List Alert) (o : ZObs) (a : Alert)
    (hl : s.getLast? = some a) :
    alertStep thr s o =
      if |o.zscore| > thr ∧ 5 ≤ (o.now - a.timestamp) % 86400 then
        s ++ [⟨o.now, o.pair, o.zscore, o.spread⟩]
      else s := by
  have hred : alertStep thr s o =
      if |o.zscore| > thr then
        if (o.now - a.timestamp) % 86400 < 5 then s
        else s ++ [⟨o.now, o.pair, o.zscore, o.spread⟩]
      else s := by
    unfold alertStep
    rw [hl]
    by_cases h : |o.zscore| > thr
    · rw [if_pos h, if_pos h]
      by_cases h5 : (o.now - a.timestamp) % 86400 < 5
      · rw [if_pos h5]
        simp [h5]
      · rw [if_neg h5]
        simp [h5]
    · rw [if_neg h, if_neg h]
  rw [hred]
  by_cases h : |o.zscore| > thr
  · rw [if_pos h]
    by_cases h5 : (o.now - a.timestamp) % 86400 < 5
    · rw [if_pos h5, if_neg (fun hc => absurd hc.2 (by omega))]
    · rw [if_neg h5, if_pos ⟨h, by omega⟩]
  · rw [if_neg h, if_neg (fun hc => absurd hc.1 h)]

/-! ## Claim theorems -/

/-- C1, counterexample.  The claim states that an alert is emitted
whenever `|z| > threshold` and no alert *for the same symbol pair* exists
within the 5-second debounce window.  Concretely: after an alert for pair
`"BTCUSDT/ETHUSDT"` at second 0, a breach for the distinct pair
`"SOLUSDT/ADAUSDT"` at second 2 has no prior alert for its own pair at
all, so the claim requires a second alert — but the code compares against
the most recent alert of the global list and suppresses it (one alert
total).  The spec-worded per-pair evaluator emits two. -/
theorem alert_debounce_is_global_counterexample :
    (runAlerts 2 [⟨0, "BTCUSDT/ETHUSDT", 3, 1⟩, ⟨2, "SOLUSDT/ADAUSDT", 3, 1⟩]).length = 1 ∧
    (runAlertsPerPair 2
      [⟨0, "BTCUSDT/ETHUSDT", 3, 1⟩, ⟨2, "SOLUSDT/ADAUSDT", 3, 1⟩]).length = 2 := by
  constructor <;> rfl

/-- C1, amended.  On each z-score observation the code emits an Alert iff
`|z| > threshold` and either no alert exists at all or the most recent
recorded alert — of any symbol pair, not just the observed one — is at
least 5 seconds old (elapsed seconds taken modulo 86400, since the code
reads `timedelta.seconds`).  In particular two breaches 3 seconds apart
produce exactly one alert and breaches 6 seconds apart produce two,
whether or not the pairs coincide. -/
theorem alert_debounce_global_amended :
    (∀ (thr : ℚ) (s : List Alert) (o : ZObs),
      (alertStep thr s o = s ++ [⟨o.now, o.pair, o.zscore, o.spread⟩] ∨
        alertStep thr s o = s) ∧
      (alertStep thr s o ≠ s ↔
        |o.zscore| > thr ∧
          ∀ a : Alert, s.getLast? = some a → 5 ≤ (o.now - a.timestamp) % 86400)) ∧
    (∀ (t : ℕ) (p₁ p₂ : String) (s₁ s₂ : ℚ),
      (runAlerts 2 [⟨t, p₁, 3, s₁⟩, ⟨t + 3, p₂, 3, s₂⟩]).length = 1 ∧
      (runAlerts 2 [⟨t, p₁, 3, s₁⟩, ⟨t + 6, p₂, 3, s₂⟩]).length = 2) := by
  have habs : |(3 : ℚ)| > 2 := by norm_num
  constructor
  · intro thr s o
    rcases hl : s.getLast? with _ | a
    · rw [alertStep_getLast_none thr s o hl]
      by_cases h : |o.zscore| > thr
      · rw [if_pos h]
        refine ⟨Or.inl rfl, ?_⟩
        constructor
        · intro _
          exact ⟨h, fun b hb => by cases hb⟩
        · intro _
          exact append_singleton_ne s _
      · rw [if_neg h]
        refine ⟨Or.inr rfl, ?_⟩
        constructor
        · intro hne; exact absurd rfl hne
        · rintro ⟨ha, _⟩; exact absurd ha h
    · rw [alertStep_getLast_some thr s o a hl]
      by_cases hc : |o.zscore| > thr ∧ 5 ≤ (o.now - a.timestamp) % 86400
      · rw [if_pos hc]
        refine ⟨Or.inl rfl, ?_⟩
        constructor
        · intro _
          refine ⟨hc.1, fun b hb => ?_⟩
          cases hb
          exact hc.2
        · intro _
          exact append_singleton_ne s _
      · rw [if_neg hc]
        refine ⟨Or.inr rfl, ?_⟩
        constructor
        · intro hne; exact absurd rfl hne
        · rintro ⟨ha, hall⟩
          exact absurd ⟨ha, hall a rfl⟩ hc
  · intro t p₁ p₂ s₁ s₂
    have h1 : alertStep 2 [] ⟨t, p₁, 3, s₁⟩ = [⟨t, p₁, 3, s₁⟩] := by
      rw [alertStep_getLast_none 2 [] ⟨t, p₁, 3, s₁⟩ rfl, if_pos habs]
      rfl
    constructor
    · show (alertStep 2 (alertStep 2 [] ⟨t, p₁, 3, s₁⟩) ⟨t + 3, p₂, 3, s₂⟩).length = 1
      rw [h1, alertStep_getLast_some 2 [⟨t, p₁, 3, s₁⟩] ⟨t + 3, p₂, 3, s₂⟩
        ⟨t, p₁, 3, s₁⟩ rfl, if_neg ?hneg3]
      case hneg3 =>
        rintro ⟨-, hge⟩
        revert hge
        show ¬ (5 ≤ (t + 3 - t) % 86400)
        omega
      rfl
    · show (alertStep 2 (alertStep 2 [] ⟨t, p₁, 3, s₁⟩) ⟨t + 6, p₂, 3, s₂⟩).length = 2
      rw [h1, alertStep_getLast_some 2 [⟨t, p₁, 3, s₁⟩] ⟨t + 6, p₂, 3, s₂⟩
        ⟨t, p₁, 3, s₁⟩ rfl, if_pos ⟨habs, show 5 ≤ (t + 6 - t) % 86400 by omega⟩]
      rfl

/-- C3, counterexample.  On the constant series `[1, 1, 1]` with window 2
the claim demands `max 0 (3 - 2 + 1) = 2` defined z-score points, but
every window has zero standard deviation, so line 137 of src/analytics.py
replaces the rolling std by `NaN` and `dropna` leaves no point at all. -/
theorem zscore_count_counterexample :
    (calculate_zscore [1, 1, 1] 2).length = 0 ∧
    (calculate_zscore [1, 1, 1] 2).length ≠ max 0 (3 - 2 + 1) := by
  constructor <;> decide

/-- C3, amended.  For a window `w ≥ 2` and a series whose full windows all
have nonzero variance (no constant window), the z-score series has exactly
`max 0 (len - w + 1)` defined points (written `len + 1 - w` in truncated
natural subtraction) and they sit exactly at the indices
`w-1, ..., len-1`; the first `w-1` indices are always absent.  The
counterexample forces the two extra hypotheses: a zero rolling standard
deviation makes the point undefined, and for `w = 1` the sample standard
deviation (`ddof=1`) is `NaN` everywhere. -/
theorem zscore_defined_points_amended (xs : List ℚ) (w : ℕ) (hw : 2 ≤ w)
    (hvar : ∀ i ∈ List.range xs.length, w - 1 ≤ i → rollVarAt xs w i ≠ 0) :
    (calculate_zscore xs w).map Prod.fst = List.range' (w - 1) (xs.length + 1 - w) ∧
    (calculate_zscore xs w).length = xs.length + 1 - w := by
  have key : calculate_zscore xs w
      = ((List.range xs.length).filter fun i => decide (w - 1 ≤ i)).map
          fun i => (i, xs.getD i 0 - rollMeanAt xs w i, rollVarAt xs w i) := by
    rw [calculate_zscore,
      filterMap_ite (fun i => 2 ≤ w ∧ w ≤ i + 1 ∧ rollVarAt xs w i ≠ 0)
        (fun i => (i, xs.getD i 0 - rollMeanAt xs w i, rollVarAt xs w i))]
    congr 1
    apply List.filter_congr
    intro i hi
    apply decide_eq_decide.mpr
    constructor
    · rintro ⟨_, hwi, _⟩; omega
    · intro hle; exact ⟨hw, by omega, hvar i hi hle⟩
  have hn : xs.length + 1 - w = xs.length - (w - 1) := by omega
  rw [key, filter_range_le, hn]
  constructor
  · rw [List.map_map]
    have : (Prod.fst ∘ fun i =>
        ((i, xs.getD i 0 - rollMeanAt xs w i, rollVarAt xs w i) : ℕ × ℚ × ℚ))
        = fun i => i := rfl
    rw [this, List.map_id']
  · rw [List.length_map, List.length_range']

/-- C3, witness for `zscore_defined_points_amended` at
`xs = [1, 2, 4]`, `w = 2`. -/
theorem zscore_defined_points_witness :
    ((2 : ℕ) ≤ 2 ∧ ∀ i ∈ List.range ([1, 2, 4] : List ℚ).length,
        2 - 1 ≤ i → rollVarAt [1, 2, 4] 2 i ≠ 0) ∧
    ((calculate_zscore [1, 2, 4] 2).map Prod.fst = List.range' 1 2 ∧
      (calculate_zscore [1, 2, 4] 2).length = 2) :=
  ⟨⟨by decide, by decide⟩,
    zscore_defined_points_amended [1, 2, 4] 2 (by decide) (by decide)⟩

/-- C5: whenever inner alignment and NaN dropping leave fewer than two
points, `calculate_ols_hedge_ratio` returns the neutral default
`(1.0, 0.0, 0.0)`.  The embedded function is total — the source wraps the
body in `try/except` and returns the same default on any exception — so
no input raises. -/
theorem hedge_ratio_neutral_default (a b : List (ℕ × Option ℚ))
    (h : (alignedPoints a b).length < 2) :
    calculate_ols_hedge_ratio a b = (1, 0, some 0) := by
  unfold calculate_ols_hedge_ratio
  simp [h]

/-- C5, witness for `hedge_ratio_neutral_default` on two one-point
series. -/
theorem hedge_ratio_neutral_default_witness :
    (alignedPoints (mkSeriesFrom 0 [1]) (mkSeriesFrom 0 [5])).length < 2 ∧
    calculate_ols_hedge_ratio (mkSeriesFrom 0 [1]) (mkSeriesFrom 0 [5]) = (1, 0, some 0) :=
  ⟨by decide, hedge_ratio_neutral_default _ _ (by decide)⟩

/-- C4: with fewer than 50 non-missing observations the stationarity test
raises the typed `ValueError` of line 223 to the caller (re-raised by the
bare `raise` of line 249), and with 50 or more it runs the ADF regression
and classifies `is_stationary = p_value < 0.05`. -/
theorem adf_test_threshold (oracle : List ℚ → AdfOut) (series : List (Option ℚ)) :
    ((series.filterMap id).length < 50 →
      adf_test oracle series = .error (.valueError
        ("ADF test requires at least 50 data points. Got "
          ++ toString (series.filterMap id).length ++ "."))) ∧
    (50 ≤ (series.filterMap id).length →
      ∃ r : AdfResult, adf_test oracle series = .ok r ∧
        r.p_value = (oracle (series.filterMap id)).pvalue ∧
        (r.is_stationary = true ↔ (oracle (series.filterMap id)).pvalue < 1 / 20) ∧
        r.n_observations = (series.filterMap id).length) := by
  constructor
  · intro h
    unfold adf_test
    simp [h]
  · intro h
    unfold adf_test
    rw [if_neg (by omega)]
    exact ⟨_, rfl, rfl, by simp, rfl⟩

/-- C4, witness for `adf_test_threshold`: the error branch on a 3-point
series and the classification branch on a 50-point series with a
p-value of 1/100. -/
theorem adf_test_threshold_witness :
    ((([some 1, some 2, none] : List (Option ℚ)).filterMap id).length < 50 ∧
      adf_test (fun _ => ⟨0, 1 / 100, 0, 0, 0⟩) [some 1, some 2, none]
        = .error (.valueError "ADF test requires at least 50 data points. Got 2.")) ∧
    (50 ≤ (((List.range 50).map fun i => some ((i : ℚ))).filterMap id).length ∧
      ∃ r : AdfResult,
        adf_test (fun _ => ⟨0, 1 / 100, 0, 0, 0⟩)
          ((List.range 50).map fun i => some ((i : ℚ))) = .ok r ∧
        r.p_value = 1 / 100 ∧ (r.is_stationary = true ↔ (1 : ℚ) / 100 < 1 / 20) ∧
        r.n_observations = 50) := by
  constructor
  · exact ⟨by decide,
      (adf_test_threshold (fun _ => ⟨0, 1 / 100, 0, 0, 0⟩) [some 1, some 2, none]).1
        (by decide)⟩
  · refine ⟨by decide, ?_⟩
    have h := (adf_test_threshold (fun _ => ⟨0, 1 / 100, 0, 0, 0⟩)
      ((List.range 50).map fun i => some ((i : ℚ)))).2 (by decide)
    simpa using h

/-- C6, counterexample.  The claim says `summary_stats` returns a record
containing `last`, `returns_mean` and `returns_std` fields.  But the code
returns identical dictionaries on the inputs `[1, 2]` and `[2, 1]`, while
any record with the `last` field of the spec would have to differ on them
(`last = 2` versus `last = 1`): the returned record carries no `last` (or
returns) information.  The code returns `skew`/`kurtosis` instead. -/
theorem summary_stats_fields_counterexample :
    calculate_summary_stats [1, 2] = calculate_summary_stats [2, 1] ∧
    (summary_stats_spec [1, 2]).last ≠ (summary_stats_spec [2, 1]).last := by
  constructor <;> decide

/-- C6, amended.  `calculate_summary_stats` returns the record
`{mean, std, min, max, skew, kurtosis, count}` (no `last` and no returns
statistics); it never raises: on the empty series every statistic is
missing (`NaN`) and `count = 0`, on any nonempty series `count` is the
length and `mean`/`min`/`max` are defined. -/
theorem summary_stats_amended :
    calculate_summary_stats [] =
      { mean := none, std := none, min := none, max := none,
        skew := none, kurtosis := none, count := 0 } ∧
    (∀ xs : List ℚ, (calculate_summary_stats xs).count = xs.length) ∧
    (∀ xs : List ℚ, xs ≠ [] →
      ((calculate_summary_stats xs).mean).isSome ∧
      ((calculate_summary_stats xs).min).isSome ∧
      ((calculate_summary_stats xs).max).isSome) := by
  refine ⟨by decide, fun xs => rfl, fun xs hxs => ?_⟩
  match xs with
  | [] => exact absurd rfl hxs
  | x :: rest =>
    refine ⟨?_, by simp [calculate_summary_stats], by simp [calculate_summary_stats]⟩
    simp [calculate_summary_stats]

/-- C6, witness for `summary_stats_amended` at the one-point series
`[7]`. -/
theorem summary_stats_amended_witness :
    (([7] : List ℚ) ≠ []) ∧
    (((calculate_summary_stats [7]).mean).isSome ∧
      ((calculate_summary_stats [7]).min).isSome ∧
      ((calculate_summary_stats [7]).max).isSome) :=
  ⟨by decide, summary_stats_amended.2.2 [7] (by decide)⟩

theorem le_maxPrice (t0 : Tick) (g : List Tick) : t0.price ≤ maxPrice t0 g := by
  induction g with
  | nil => exact le_refl _
  | cons u us ih =>
    exact le_trans ih (le_max_right _ _)

theorem mem_le_maxPrice (t0 : Tick) (g : List Tick) (t : Tick) (ht : t ∈ g) :
    t.price ≤ maxPrice t0 g := by
  induction g with
  | nil => cases ht
  | cons u us ih =>
    rcases List.mem_cons.mp ht with h | h
    · subst h
      exact le_max_left _ _
    · exact le_trans (ih h) (le_max_right _ _)

theorem minPrice_le (t0 : Tick) (g : List Tick) : minPrice t0 g ≤ t0.price := by
  induction g with
  | nil => exact le_refl _
  | cons u us ih =>
    exact le_trans (min_le_right _ _) ih

theorem minPrice_le_mem (t0 : Tick) (g : List Tick) (t : Tick) (ht : t ∈ g) :
    minPrice t0 g ≤ t.price := by
  induction g with
  | nil => cases ht
  | cons u us ih =>
    rcases List.mem_cons.mp ht with h | h
    · subst h
      exact min_le_left _ _
    · exact le_trans (min_le_right _ _) (ih h)

theorem bucketsOf_flatten (w : ℕ) :
    ∀ l : List Tick, ((bucketsOf w l).map fun p => p.1 :: p.2).flatten = l := by
  intro l
  induction l with
  | nil => rfl
  | cons t ts ih =>
    rw [bucketsOf]
    cases hb : bucketsOf w ts with
    | nil =>
      rw [hb] at ih
      simp at ih
      simp [ih]
    | cons q gs =>
      rw [hb] at ih
      obtain ⟨u, g⟩ := q
      by_cases hk : t.timestamp / w = u.timestamp / w
      · simp only [if_pos hk, List.map_cons, List.flatten_cons] at *
        simpa using ih
      · simp only [if_neg hk, List.map_cons, List.flatten_cons] at *
        simpa using ih

theorem bucketsOf_mem (w : ℕ) (l : List Tick) (p : Tick × List Tick)
    (hp : p ∈ bucketsOf w l) : p.1 ∈ l ∧ ∀ t ∈ p.2, t ∈ l := by
  have hf := bucketsOf_flatten w l
  constructor
  · rw [← hf]
    exact List.mem_flatten.mpr ⟨p.1 :: p.2, List.mem_map.mpr ⟨p, hp, rfl⟩, List.mem_cons_self _ _⟩
  · intro t ht
    rw [← hf]
    exact List.mem_flatten.mpr ⟨p.1 :: p.2, List.mem_map.mpr ⟨p, hp, rfl⟩,
      List.mem_cons_of_mem _ ht⟩

/-- C7: every bar built by the aggregator satisfies the OHLC sandwich
`low ≤ open ≤ high`, `low ≤ close ≤ high`, its volume is nonnegative for
valid ticks (nonnegative quantities), each bar is backed by at least one
input tick in its bucket (empty buckets produce no bar: the `NaN` rows
that `resample` synthesises for them are removed by `dropna`), and an
input with no ticks yields an empty result. -/
theorem bars_ohlc_invariants (ticks : List Tick) (w : ℕ)
    (hq : ∀ t ∈ ticks, 0 ≤ t.quantity) :
    (∀ bar ∈ resample_ticks ticks w,
      bar.low ≤ bar.op ∧ bar.op ≤ bar.high ∧ bar.low ≤ bar.close ∧
        bar.close ≤ bar.high ∧ 0 ≤ bar.volume ∧
        ∃ t ∈ ticks, (t.timestamp / w) * w = bar.period_start) ∧
    resample_ticks [] w = [] := by
  refine ⟨?_, rfl⟩
  intro bar hbar
  rw [resample_ticks] at hbar
  rcases List.mem_map.mp hbar with ⟨p, hp, hbar⟩
  obtain ⟨t0, g⟩ := p
  have hmem := bucketsOf_mem w _ _ hp
  have hmem0 : t0 ∈ ticks := (List.mem_insertionSort tsLe).mp hmem.1
  have hmemg : ∀ t ∈ g, t ∈ ticks := fun t ht =>
    (List.mem_insertionSort tsLe).mp (hmem.2 t ht)
  subst hbar
  have hclose : ((t0 :: g).getLast (List.cons_ne_nil t0 g)) ∈ t0 :: g :=
    List.getLast_mem _
  simp only [mkBar]
  refine ⟨?_, ?_, ?_, ?_, ?_, ?_⟩
  · exact minPrice_le t0 g
  · exact le_maxPrice t0 g
  · rcases List.mem_cons.mp hclose with h | h
    · rw [h]
      exact minPrice_le t0 g
    · exact minPrice_le_mem t0 g _ h
  · rcases List.mem_cons.mp hclose with h | h
    · rw [h]
      exact le_maxPrice t0 g
    · exact mem_le_maxPrice t0 g _ h
  · apply List.sum_nonneg
    intro x hx
    rcases List.mem_cons.mp hx with h | h
    · rw [h]
      exact hq t0 hmem0
    · rcases List.mem_map.mp h with ⟨t, ht, rfl⟩
      exact hq t (hmemg t ht)
  · exact ⟨t0, hmem0, rfl⟩

/-- C7, witness for `bars_ohlc_invariants` on a three-tick input spanning
two one-minute buckets. -/
theorem bars_ohlc_invariants_witness :
    (∀ t ∈ ([⟨10, 5, 1⟩, ⟨20, 3, 2⟩, ⟨70, 4, 0⟩] : List Tick), 0 ≤ t.quantity) ∧
    ((∀ bar ∈ resample_ticks [⟨10, 5, 1⟩, ⟨20, 3, 2⟩, ⟨70, 4, 0⟩] 60,
      bar.low ≤ bar.op ∧ bar.op ≤ bar.high ∧ bar.low ≤ bar.close ∧
        bar.close ≤ bar.high ∧ 0 ≤ bar.volume ∧
        ∃ t ∈ ([⟨10, 5, 1⟩, ⟨20, 3, 2⟩, ⟨70, 4, 0⟩] : List Tick),
          (t.timestamp / 60) * 60 = bar.period_start) ∧
      resample_ticks [] 60 = []) :=
  ⟨by decide, bars_ohlc_invariants [⟨10, 5, 1⟩, ⟨20, 3, 2⟩, ⟨70, 4, 0⟩] 60 (by decide)⟩

/-- C8: for a positive `limit`, `get_ticks` returns a sequence that is
sorted ascending by timestamp, has `min limit count` entries, and is a
*tail* window of the time-ordered tick set: the rows it leaves out all
have timestamps no later than every returned row (most-recent-`limit`
semantics, not a head window).  SQLite leaves the relative order of
equal-timestamp rows unspecified, so the statement is phrased up to
permutation and is tie-break independent. -/
theorem get_ticks_tail_window_sorted (db : List TickRow) (sym : String) (n : ℕ)
    (hn : 0 < n) :
    List.Sorted rowAsc (get_ticks db (some sym) (some n) none none) ∧
    (get_ticks db (some sym) (some n) none none).length
      = min n (db.filter fun r => r.symbol == sym).length ∧
    ∃ dropped : List TickRow,
      ((get_ticks db (some sym) (some n) none none) ++ dropped).Perm
        (db.filter fun r => r.symbol == sym) ∧
      ∀ d ∈ dropped, ∀ r ∈ get_ticks db (some sym) (some n) none none,
        d.timestamp ≤ r.timestamp := by
  have hne : ¬ (n = 0) := by omega
  have hg : get_ticks db (some sym) (some n) none none
      = List.insertionSort rowAsc
          ((List.insertionSort rowDesc (db.filter fun r => r.symbol == sym)).take n) := by
    unfold get_ticks
    simp only [if_neg hne, Bool.and_true]
  rw [hg]
  set A := db.filter fun r => r.symbol == sym with hA
  set D := List.insertionSort rowDesc A with hD
  have p1 : (List.insertionSort rowAsc (D.take n)).Perm (D.take n) :=
    List.perm_insertionSort rowAsc _
  have pD : D.Perm A := List.perm_insertionSort rowDesc A
  refine ⟨List.sorted_insertionSort rowAsc _, ?_, D.drop n, ?_, ?_⟩
  · rw [p1.length_eq, List.length_take, pD.length_eq]
  · have h2 : (List.insertionSort rowAsc (D.take n) ++ D.drop n).Perm
        (D.take n ++ D.drop n) := p1.append_right _
    rw [List.take_append_drop] at h2
    exact h2.trans pD
  · have hpw : List.Pairwise rowDesc D := List.sorted_insertionSort rowDesc A
    have hpw2 : List.Pairwise rowDesc (D.take n ++ D.drop n) := by
      rw [List.take_append_drop]
      exact hpw
    have hsplit := (List.pairwise_append.mp hpw2).2.2
    intro d hd r hr
    exact hsplit r (p1.subset hr) d hd

/-- C8, witness for `get_ticks_tail_window_sorted`: four stored rows,
three for symbol `A`, limit 2 — the two most recent `A` ticks come back
in ascending order. -/
theorem get_ticks_tail_window_sorted_witness :
    (0 < 2) ∧
    (List.Sorted rowAsc (get_ticks
        [⟨5, "A", 1, 1⟩, ⟨1, "A", 2, 1⟩, ⟨3, "B", 3, 1⟩, ⟨2, "A", 4, 1⟩]
        (some "A") (some 2) none none) ∧
      (get_ticks [⟨5, "A", 1, 1⟩, ⟨1, "A", 2, 1⟩, ⟨3, "B", 3, 1⟩, ⟨2, "A", 4, 1⟩]
          (some "A") (some 2) none none).length
        = min 2 (([⟨5, "A", 1, 1⟩, ⟨1, "A", 2, 1⟩, ⟨3, "B", 3, 1⟩, ⟨2, "A", 4, 1⟩] :
            List TickRow).filter fun r => r.symbol == "A").length ∧
      ∃ dropped : List TickRow,
        ((get_ticks [⟨5, "A", 1, 1⟩, ⟨1, "A", 2, 1⟩, ⟨3, "B", 3, 1⟩, ⟨2, "A", 4, 1⟩]
            (some "A") (some 2) none none) ++ dropped).Perm
          (([⟨5, "A", 1, 1⟩, ⟨1, "A", 2, 1⟩, ⟨3, "B", 3, 1⟩, ⟨2, "A", 4, 1⟩] :
            List TickRow).filter fun r => r.symbol == "A") ∧
        ∀ d ∈ dropped,
          ∀ r ∈ get_ticks [⟨5, "A", 1, 1⟩, ⟨1, "A", 2, 1⟩, ⟨3, "B", 3, 1⟩, ⟨2, "A", 4, 1⟩]
            (some "A") (some 2) none none,
          d.timestamp ≤ r.timestamp) :=
  ⟨by decide,
    get_ticks_tail_window_sorted
      [⟨5, "A", 1, 1⟩, ⟨1, "A", 2, 1⟩, ⟨3, "B", 3, 1⟩, ⟨2, "A", 4, 1⟩] "A" 2 (by decide)⟩

theorem eq_of_perm_sorted_nodup_ts :
    ∀ {l₁ l₂ : List Tick}, l₁.Perm l₂ → List.Sorted tsLe l₁ → List.Sorted tsLe l₂ →
      (l₁.map Tick.timestamp).Nodup → l₁ = l₂ := by
  intro l₁
  induction l₁ with
  | nil =>
    intro l₂ hp _ _ _
    exact (hp.symm.eq_nil).symm
  | cons a t ih =>
    intro l₂ hp hs₁ hs₂ hnd
    cases l₂ with
    | nil => exact absurd hp.eq_nil (by simp)
    | cons b t₂ =>
      have hab : a = b := by
        by_contra hne
        have hbmem : b ∈ a :: t := hp.mem_iff.mpr (List.mem_cons_self b t₂)
        have hbt : b ∈ t := by
          rcases List.mem_cons.mp hbmem with h | h
          · exact absurd h.symm hne
          · exact h
        have hamem : a ∈ b :: t₂ := hp.subset (List.mem_cons_self a t)
        have hat : a ∈ t₂ := by
          rcases List.mem_cons.mp hamem with h | h
          · exact absurd h hne
          · exact h
        have h1 : a.timestamp ≤ b.timestamp := List.rel_of_sorted_cons hs₁ b hbt
        have h2 : b.timestamp ≤ a.timestamp := List.rel_of_sorted_cons hs₂ a hat
        have hmem : a.timestamp ∈ t.map Tick.timestamp :=
          List.mem_map.mpr ⟨b, hbt, le_antisymm h2 h1⟩
        rw [List.map_cons, List.nodup_cons] at hnd
        exact hnd.1 hmem
      subst hab
      have hnd' : (t.map Tick.timestamp).Nodup := by
        rw [List.map_cons, List.nodup_cons] at hnd
        exact hnd.2
      rw [ih hp.cons_inv hs₁.of_cons hs₂.of_cons hnd']

/-- C2, counterexample.  Two ticks share the timestamp 0 with different
prices; the resample sort is stable, so the tie is broken by arrival
order, and permuting the two tied ticks swaps the open and close of the
tick bucket: aggregation is not invariant under shuffles that permute
equal-timestamp ticks. -/
theorem resample_order_tie_counterexample :
    (([⟨0, 2, 1⟩, ⟨0, 1, 1⟩] : List Tick).Perm [⟨0, 1, 1⟩, ⟨0, 2, 1⟩]) ∧
    resample_ticks [⟨0, 1, 1⟩, ⟨0, 2, 1⟩] 60 ≠ resample_ticks [⟨0, 2, 1⟩, ⟨0, 1, 1⟩] 60 := by
  constructor
  · decide
  · decide

/-- C2, amended.  Aggregation into OHLCV bars is invariant to the
insertion order of the ticks whenever no two ticks share a timestamp (the
aggregator stable-sorts by timestamp before bucketing).  The
counterexample forces the distinctness proviso: ties at identical
timestamps are resolved by arrival order for open/close, so shuffles
moving tied ticks can change the bars. -/
theorem resample_perm_invariant (ticks ticks' : List Tick) (w : ℕ)
    (hperm : ticks.Perm ticks')
    (hnd : (ticks.map Tick.timestamp).Nodup) :
    resample_ticks ticks w = resample_ticks ticks' w := by
  have hsorteq : List.insertionSort tsLe ticks = List.insertionSort tsLe ticks' := by
    apply eq_of_perm_sorted_nodup_ts
    · exact (List.perm_insertionSort tsLe ticks).trans
        (hperm.trans (List.perm_insertionSort tsLe ticks').symm)
    · exact List.sorted_insertionSort tsLe ticks
    · exact List.sorted_insertionSort tsLe ticks'
    · have hmap : ((List.insertionSort tsLe ticks).map Tick.timestamp).Perm
          (ticks.map Tick.timestamp) := (List.perm_insertionSort tsLe ticks).map _
      exact hmap.nodup_iff.mpr hnd
  rw [resample_ticks, resample_ticks, hsorteq]

/-- C2, witness for `resample_perm_invariant`: two ticks with distinct
timestamps, presented in the two possible orders. -/
theorem resample_perm_invariant_witness :
    ((([⟨61, 2, 1⟩, ⟨0, 1, 1⟩] : List Tick).Perm [⟨0, 1, 1⟩, ⟨61, 2, 1⟩]) ∧
      (([⟨61, 2, 1⟩, ⟨0, 1, 1⟩] : List Tick).map Tick.timestamp).Nodup) ∧
    resample_ticks [⟨61, 2, 1⟩, ⟨0, 1, 1⟩] 60 = resample_ticks [⟨0, 1, 1⟩, ⟨61, 2, 1⟩] 60 :=
  ⟨⟨by decide, by decide⟩, resample_perm_invariant _ _ 60 (by decide) (by decide)⟩

theorem alertStep_fold_gap (thr : ℚ) :
    ∀ (obs : List ZObs) (s : List Alert),
      obs.Pairwise (fun o o' => o.now ≤ o'.now) →
      s.Chain' (fun a a' => a.timestamp + 5 ≤ a'.timestamp) →
      (∀ o ∈ obs, ∀ a : Alert, s.getLast? = some a → a.timestamp ≤ o.now) →
      (obs.foldl (alertStep thr) s).Chain' (fun a a' => a.timestamp + 5 ≤ a'.timestamp) := by
  intro obs
  induction obs with
  | nil =>
    intro s _ hc _
    exact hc
  | cons o rest ih =>
    intro s hpw hc hlast
    have hhead : ∀ o' ∈ rest, o.now ≤ o'.now := (List.pairwise_cons.mp hpw).1
    have hpw' : rest.Pairwise (fun o o' => o.now ≤ o'.now) := (List.pairwise_cons.mp hpw).2
    rw [List.foldl_cons]
    rcases hl : s.getLast? with _ | a
    · have hsnil : s = [] := List.getLast?_eq_none_iff.mp hl
      subst hsnil
      rw [alertStep_getLast_none thr [] o rfl]
      by_cases h : |o.zscore| > thr
      · rw [if_pos h]
        apply ih _ hpw' (by simp)
        intro o' ho' b hb
        simp only [List.nil_append, List.getLast?_singleton, Option.some.injEq] at hb
        rw [← hb]
        exact hhead o' ho'
      · rw [if_neg h]
        exact ih _ hpw' hc (fun o' ho' b hb => by cases hb)
    · rw [alertStep_getLast_some thr s o a hl]
      by_cases hcnd : |o.zscore| > thr ∧ 5 ≤ (o.now - a.timestamp) % 86400
      · rw [if_pos hcnd]
        apply ih _ hpw'
        · apply List.chain'_append.mpr
          refine ⟨hc, List.chain'_singleton _, ?_⟩
          intro x hx y hy
          rw [hl, Option.mem_def, Option.some.injEq] at hx
          simp only [List.head?_cons, Option.mem_def, Option.some.injEq] at hy
          subst hx
          subst hy
          have hmod : 5 ≤ o.now - a.timestamp :=
            le_trans hcnd.2 (Nat.mod_le _ _)
          have hts : a.timestamp ≤ o.now := hlast o (List.mem_cons_self o rest) a hl
          show a.timestamp + 5 ≤ o.now
          omega
        · intro o' ho' b hb
          rw [List.getLast?_concat, Option.some.injEq] at hb
          rw [← hb]
          exact hhead o' ho'
      · rw [if_neg hcnd]
        exact ih _ hpw' hc (fun o' ho' b hb => hlast o' (List.mem_cons_of_mem o ho') b hb)

/-- C10: in every reachable state of the alert evaluator — the alert list
produced by running the check on any chronologically ordered observation
sequence from the empty initial list — any two consecutive recorded
alerts are at least 5 seconds apart, regardless of their symbol pairs,
because the debounce compares against the most recent alert of the global
list. -/
theorem alerts_consecutive_gap (thr : ℚ) (obs : List ZObs)
    (hmono : obs.Pairwise fun o o' => o.now ≤ o'.now) :
    (runAlerts thr obs).Chain' fun a a' => a.timestamp + 5 ≤ a'.timestamp :=
  alertStep_fold_gap thr obs [] hmono List.chain'_nil (fun _ _ b hb => by cases hb)

/-- C10, witness for `alerts_consecutive_gap` on a three-observation run
that records two alerts for different pairs, 7 seconds apart. -/
theorem alerts_consecutive_gap_witness :
    (([⟨0, "A/B", 3, 1⟩, ⟨2, "C/D", 3, 1⟩, ⟨7, "C/D", -3, 1⟩] : List ZObs).Pairwise
      fun o o' => o.now ≤ o'.now) ∧
    (runAlerts 2 [⟨0, "A/B", 3, 1⟩, ⟨2, "C/D", 3, 1⟩, ⟨7, "C/D", -3, 1⟩]).Chain'
      (fun a a' => a.timestamp + 5 ≤ a'.timestamp) :=
  ⟨by decide, alerts_consecutive_gap 2 _ (by decide)⟩

theorem mkSeriesFrom_key_ge :
    ∀ (ys : List ℚ) (k : ℕ) (p : ℕ × Option ℚ), p ∈ mkSeriesFrom k ys → k ≤ p.1 := by
  intro ys
  induction ys with
  | nil => intro k p hp; cases hp
  | cons y ys ih =>
    intro k p hp
    rcases List.mem_cons.mp hp with h | h
    · subst h; exact le_refl _
    · exact le_trans (Nat.le_succ k) (ih (k + 1) p h)

theorem alignInner_mkSeriesFrom :
    ∀ (ys zs : List ℚ) (k : ℕ), ys.length = zs.length →
      alignInner (mkSeriesFrom k ys) (mkSeriesFrom k zs)
        = (ys.zip zs).map fun p => (some p.1, some p.2) := by
  intro ys
  induction ys with
  | nil => intro zs k _; rfl
  | cons y ys ih =>
    intro zs k h
    cases zs with
    | nil => simp at h
    | cons z zs =>
      have hlen : ys.length = zs.length := by simpa using h
      have hhead : lookupKey k (mkSeriesFrom k (z :: zs)) = some (some z) := by
        show lookupKey k ((k, some z) :: mkSeriesFrom (k + 1) zs) = some (some z)
        simp [lookupKey]
      have hcong : ∀ p ∈ mkSeriesFrom (k + 1) ys,
          ((lookupKey p.1 (mkSeriesFrom k (z :: zs))).map fun vb => (p.2, vb))
            = ((lookupKey p.1 (mkSeriesFrom (k + 1) zs)).map fun vb => (p.2, vb)) := by
        intro p hp
        have hk := mkSeriesFrom_key_ge ys (k + 1) p hp
        have hne : ¬ (p.1 = k) := by omega
        show ((lookupKey p.1 ((k, some z) :: mkSeriesFrom (k + 1) zs)).map _) = _
        simp [lookupKey, hne]
      have htail : List.filterMap
          (fun p => (lookupKey p.1 (mkSeriesFrom (k + 1) zs)).map fun vb => (p.2, vb))
          (mkSeriesFrom (k + 1) ys) = (ys.zip zs).map fun p => (some p.1, some p.2) :=
        ih zs (k + 1) hlen
      show List.filterMap
          (fun p => (lookupKey p.1 (mkSeriesFrom k (z :: zs))).map fun vb => (p.2, vb))
          ((k, some y) :: mkSeriesFrom (k + 1) ys) = _
      rw [List.filterMap_cons]
      simp only [hhead, Option.map_some']
      rw [List.filterMap_congr hcong, htail]
      rfl

theorem dropPairsNa_map_some :
    ∀ l : List (ℚ × ℚ), dropPairsNa (l.map fun p => (some p.1, some p.2)) = l := by
  intro l
  induction l with
  | nil => rfl
  | cons p ps ih =>
    obtain ⟨x, y⟩ := p
    show (x, y) :: dropPairsNa (ps.map fun p => (some p.1, some p.2)) = _
    rw [ih]

theorem sum_map_affine (l : List ℚ) (a b : ℚ) :
    (l.map fun y => a * y + b).sum = a * l.sum + b * l.length := by
  induction l with
  | nil => simp
  | cons x xs ih =>
    rw [List.map_cons, List.sum_cons, ih, List.sum_cons, List.length_cons]
    push_cast
    ring

theorem length_cast_ne_zero {l : List ℚ} (hl : l ≠ []) : ((l.length : ℚ)) ≠ 0 := by
  have : l.length ≠ 0 := fun h => hl (List.length_eq_zero.mp h)
  exact_mod_cast this

theorem qmean_map_affine (l : List ℚ) (a b : ℚ) (hl : l ≠ []) :
    qmean (l.map fun y => a * y + b) = a * qmean l + b := by
  have hn : ((l.length : ℚ)) ≠ 0 := length_cast_ne_zero hl
  rw [qmean, List.length_map, sum_map_affine, qmean]
  field_simp

theorem sdev2_map_affine (l : List ℚ) (a b : ℚ) (hl : l ≠ []) :
    sdev2 (l.map fun y => a * y + b) = a ^ 2 * sdev2 l := by
  rw [sdev2, qmean_map_affine l a b hl, List.map_map]
  have hfun : ((fun x => (x - (a * qmean l + b)) ^ 2) ∘ fun y => a * y + b)
      = fun y => a ^ 2 * ((fun x => (x - qmean l) ^ 2) y) := by
    funext y
    show (a * y + b - (a * qmean l + b)) ^ 2 = a ^ 2 * (y - qmean l) ^ 2
    ring
  rw [hfun, List.sum_map_mul_left, sdev2]

theorem cdev_map_affine (l : List ℚ) (a b : ℚ) (hl : l ≠ []) :
    cdev (l.map fun y => a * y + b) l = a * sdev2 l := by
  rw [cdev, qmean_map_affine l a b hl]
  have hz : (l.map fun y => a * y + b).zip l = l.map fun y => (a * y + b, y) := by
    have hzm := List.zip_map' (fun y => a * y + b) (id : ℚ → ℚ) l
    simpa using hzm
  rw [hz, List.map_map]
  have hfun : ((fun p => (p.1 - (a * qmean l + b)) * (p.2 - qmean l)) ∘
        fun y => ((a * y + b, y) : ℚ × ℚ))
      = fun y => a * ((fun x => (x - qmean l) ^ 2) y) := by
    funext y
    show (a * y + b - (a * qmean l + b)) * (y - qmean l) = a * (y - qmean l) ^ 2
    ring
  rw [hfun, List.sum_map_mul_left, sdev2]

theorem sum_sq_zero {c : ℚ} :
    ∀ {l : List ℚ}, (l.map fun x => (x - c) ^ 2).sum = 0 → ∀ x ∈ l, x = c := by
  intro l
  induction l with
  | nil =>
    intro _ x hx
    cases hx
  | cons y ys ih =>
    intro h x hx
    rw [List.map_cons, List.sum_cons] at h
    have hrest : (0 : ℚ) ≤ (ys.map fun x => (x - c) ^ 2).sum := by
      apply List.sum_nonneg
      intro u hu
      rcases List.mem_map.mp hu with ⟨v, _, rfl⟩
      exact sq_nonneg _
    have hy2 : (0 : ℚ) ≤ (y - c) ^ 2 := sq_nonneg _
    have h1 : (y - c) ^ 2 = 0 := by linarith
    have h2 : (ys.map fun x => (x - c) ^ 2).sum = 0 := by linarith
    rcases List.mem_cons.mp hx with rfl | hx'
    · exact sub_eq_zero.mp (sq_eq_zero_iff.mp h1)
    · exact ih h2 x hx'

theorem sdev2_ne_zero_of_nonconst {l : List ℚ} {u v : ℚ} (hu : u ∈ l) (hv : v ∈ l)
    (huv : u ≠ v) : sdev2 l ≠ 0 := by
  intro h0
  rw [sdev2] at h0
  have hall := sum_sq_zero h0
  exact huv ((hall u hu).trans (hall v hv).symm)

/-- C9, counterexample.  On the constant collinear pair `A = [1, 1]`,
`B = [5, 5]` (which satisfies `B = 2*A + 3` with 2 points), the code does
not produce `(0.5, -1.5, 1.0)`: `sm.add_constant` (default
`has_constant="skip"`) adds no intercept column to the already-constant
nonzero regressor B, so the fit has a single parameter,
`model.params[1]` raises `IndexError`, and the `except` of lines 91-93
returns the neutral default `(1.0, 0.0, 0.0)`. -/
theorem hedge_ratio_collinear_counterexample :
    calculate_ols_hedge_ratio (mkSeriesFrom 0 [1, 1]) (mkSeriesFrom 0 [5, 5])
        = (1, 0, some 0) ∧
    ¬ (calculate_ols_hedge_ratio (mkSeriesFrom 0 [1, 1]) (mkSeriesFrom 0 [5, 5])
        = (1 / 2, -3 / 2, some 1)) := by
  constructor <;> decide

/-- C9, amended.  For a non-constant series A with at least two points and
`B = 2*A + 3` pointwise on the same index, `calculate_ols_hedge_ratio`
regressing A on B returns exactly `beta = 1/2`, `alpha = -3/2`,
`r_squared = 1` (exact rational arithmetic, so the floating tolerance is
met exactly).  The counterexample forces the non-constancy proviso: on a
constant A the constant B defeats `sm.add_constant` and the caught
`IndexError` yields the neutral default instead. -/
theorem hedge_ratio_collinear_amended (ys : List ℚ) (h2 : 2 ≤ ys.length)
    (hnc : ∃ u ∈ ys, ∃ v ∈ ys, u ≠ v) :
    calculate_ols_hedge_ratio (mkSeriesFrom 0 ys)
      (mkSeriesFrom 0 (ys.map fun y => 2 * y + 3)) = (1 / 2, -3 / 2, some 1) := by
  obtain ⟨u, hu, v, hv, huv⟩ := hnc
  have hys_ne : ys ≠ [] := by
    intro h
    subst h
    cases hu
  have hSne : sdev2 ys ≠ 0 := sdev2_ne_zero_of_nonconst hu hv huv
  have hpts : alignedPoints (mkSeriesFrom 0 ys) (mkSeriesFrom 0 (ys.map fun y => 2 * y + 3))
      = ys.zip (ys.map fun y => 2 * y + 3) := by
    rw [alignedPoints, alignInner_mkSeriesFrom ys (ys.map fun y => 2 * y + 3) 0 (by simp),
      dropPairsNa_map_some]
  have hfst : (ys.zip (ys.map fun y => 2 * y + 3)).map Prod.fst = ys :=
    List.map_fst_zip _ _ (by simp)
  have hsnd : (ys.zip (ys.map fun y => 2 * y + 3)).map Prod.snd = ys.map fun y => 2 * y + 3 :=
    List.map_snd_zip _ _ (by simp)
  have hlen : (ys.zip (ys.map fun y => 2 * y + 3)).length = ys.length := by
    simp
  unfold calculate_ols_hedge_ratio
  rw [hpts]
  rw [if_neg (by rw [hlen]; omega)]
  simp only [hfst, hsnd]
  rw [sdev2_map_affine ys 2 3 hys_ne, cdev_map_affine ys 2 3 hys_ne,
    qmean_map_affine ys 2 3 hys_ne]
  rw [if_neg (fun hz => hSne ((mul_eq_zero.mp hz).resolve_left (by norm_num)))]
  rw [if_neg hSne]
  simp only [Prod.mk.injEq]
  refine ⟨?_, ?_, ?_⟩
  · field_simp
    ring
  · field_simp
    ring
  · congr 1
    field_simp
    ring

/-- C9, witness for `hedge_ratio_collinear_amended` at `A = [1, 2]`,
`B = [5, 7]`. -/
theorem hedge_ratio_collinear_witness :
    (2 ≤ ([1, 2] : List ℚ).length ∧
      ∃ u ∈ ([1, 2] : List ℚ), ∃ v ∈ ([1, 2] : List ℚ), u ≠ v) ∧
    calculate_ols_hedge_ratio (mkSeriesFrom 0 [1, 2])
      (mkSeriesFrom 0 (([1, 2] : List ℚ).map fun y => 2 * y + 3))
      = (1 / 2, -3 / 2, some 1) :=
  ⟨⟨by decide, by decide⟩, hedge_ratio_collinear_amended [1, 2] (by decide) (by decide)⟩

end GemscapQuant
